import Mathlib

/-!
Verification of the crypto-data-manager repository: a shallow embedding in
Lean 4 of the kline storage naming contract, the frontend form logic, and
the download/integrity pipeline described by the specification, together
with theorems settling the specification's claims.

The backend Python implementation (segment planner, scheduler, upserter,
integrity checker, reconciler) is not part of the source tree that was
provided; where a definition embeds such a missing component it is
modelled from the specification and its doc comment says so.  Frontend
components (DeleteForm.tsx, DownloadForm, OtherDataDownload.tsx) and the
table-naming contract (backend/TABLE_NAMING.md, including its embedded
Python snippets) are embedded directly from the source.
-/

set_option autoImplicit false

namespace CryptoData

/-! ### Interval codes and table naming (TABLE_NAMING.md, DeleteForm.tsx INTERVALS) -/

/-- The 15 supported kline interval codes, as listed in `TABLE_NAMING.md`
and in the frontend `INTERVALS` arrays. -/
inductive Interval where
  | i1m | i3m | i5m | i15m | i30m
  | i1h | i2h | i4h | i6h | i8h | i12h
  | i1d | i3d | i1w | i1M
  deriving DecidableEq, Repr

/-- The wire/string code of an interval (the `value` fields of the
frontend `INTERVALS` arrays and the interval column of `TABLE_NAMING.md`). -/
def Interval.code : Interval → String
  | .i1m => "1m" | .i3m => "3m" | .i5m => "5m" | .i15m => "15m" | .i30m => "30m"
  | .i1h => "1h" | .i2h => "2h" | .i4h => "4h" | .i6h => "6h" | .i8h => "8h"
  | .i12h => "12h" | .i1d => "1d" | .i3d => "3d" | .i1w => "1w" | .i1M => "1M"

/-- Storage-unit (table) name for a series, from the Python snippet in
`TABLE_NAMING.md`: `table_name = f'K{interval}{symbol}'`. -/
def tableName (i : Interval) (symbol : String) : String :=
  "K" ++ i.code ++ symbol

/-- Unit letters accepted by the `parse_table_name` regex
`^K(\d+)([mhdwM])(.+)$` of `TABLE_NAMING.md`. -/
def isUnitChar (c : Char) : Bool :=
  c = 'm' || c = 'h' || c = 'd' || c = 'w' || c = 'M'

/-- `parse_table_name` from `TABLE_NAMING.md`: splits `K` + digits + unit
letter + symbol back into the interval code and the symbol.  The regex
`^K(\d+)([mhdwM])(.+)$` is rendered functionally: after the leading `K`,
the maximal digit run is group 1, the following character must be a unit
letter, and the non-empty remainder is the symbol. -/
def parseTableName (t : String) : Option (String × String) :=
  match t.data with
  | 'K' :: rest =>
    let ds := rest.takeWhile Char.isDigit
    match rest.dropWhile Char.isDigit with
    | u :: sym =>
      if ds ≠ [] && isUnitChar u && sym ≠ [] then
        some (String.mk (ds ++ [u]), String.mk sym)
      else
        none
    | [] => none
  | _ => none

end CryptoData

namespace CryptoData

/-! ### KlineRecord and the Upserter (spec §3, §4.4) -/

/-- Modelled from the spec: `KlineRecord`, one OHLCV observation, with
`open_time` as the primary temporal key (spec §3; the backend table
schema is not in the provided sources). -/
structure KlineRecord where
  open_time : Nat
  openP : Rat
  high : Rat
  low : Rat
  closeP : Rat
  volume : Rat
  quote_volume : Rat
  trade_count : Nat
  active_buy_volume : Rat
  active_buy_quote_volume : Rat
  close_time : Nat
  deriving DecidableEq, Repr

/-- Keys (open times) of a stored series, in storage order. -/
def keyList (s : List KlineRecord) : List Nat :=
  s.map (·.open_time)

/-- The primary-key invariant of a persisted series: no duplicate
`open_time`. -/
def NoDupKeys (s : List KlineRecord) : Prop :=
  (keyList s).Nodup

/-- Modelled from the spec: overwrite the non-key fields of the existing
row with key `r.open_time` (upsert with `update_existing`); since the
key of the incoming record equals the key of the overwritten row, this
is replacement of the whole row. -/
def overwriteRec (s : List KlineRecord) (r : KlineRecord) : List KlineRecord :=
  s.map fun x => if x.open_time = r.open_time then r else x

/-- Modelled from the spec (§4.4 Upserter): write one record; a
primary-key conflict is treated as a skip unless `update_existing` was
requested, in which case the existing row is overwritten; a fresh key is
inserted at the tail (ascending key order of the batch). -/
def upsertOne (updateExisting : Bool) (s : List KlineRecord)
    (r : KlineRecord) : List KlineRecord :=
  if s.any fun x => x.open_time == r.open_time then
    if updateExisting then overwriteRec s r else s
  else
    s ++ [r]

/-- Modelled from the spec (§4.4): persist a batch of records
idempotently, record by record, the conflict policy per record. -/
def upsertBatch (updateExisting : Bool) (s : List KlineRecord)
    (b : List KlineRecord) : List KlineRecord :=
  b.foldl (upsertOne updateExisting) s

/-- The last record of a batch carrying a given key (the write that wins
when a batch mentions the same `open_time` more than once). -/
def lastWith (b : List KlineRecord) (t : Nat) : Option KlineRecord :=
  match b with
  | [] => none
  | r :: bs =>
    match lastWith bs t with
    | some y => some y
    | none => if r.open_time = t then some r else none

end CryptoData

namespace CryptoData

theorem keyList_overwriteRec (s : List KlineRecord) (r : KlineRecord) :
    keyList (overwriteRec s r) = keyList s := by
  simp only [keyList, overwriteRec, List.map_map]
  refine List.map_congr_left fun x _ => ?_
  by_cases h : x.open_time = r.open_time <;> simp [h]

theorem mem_keyList_iff_any (s : List KlineRecord) (t : Nat) :
    (s.any fun x => x.open_time == t) = true ↔ t ∈ keyList s := by
  simp only [List.any_eq_true, beq_iff_eq, keyList, List.mem_map]

theorem keyList_upsertOne_mono (u : Bool) (s : List KlineRecord)
    (r : KlineRecord) {t : Nat} (h : t ∈ keyList s) :
    t ∈ keyList (upsertOne u s r) := by
  unfold upsertOne
  split
  · split
    · rwa [keyList_overwriteRec]
    · exact h
  · simp [keyList] at h ⊢
    exact Or.inl h

theorem key_mem_upsertOne (u : Bool) (s : List KlineRecord) (r : KlineRecord) :
    r.open_time ∈ keyList (upsertOne u s r) := by
  unfold upsertOne
  split
  · rename_i h
    rw [mem_keyList_iff_any] at h
    split
    · rwa [keyList_overwriteRec]
    · exact h
  · simp [keyList]

theorem keyList_upsertBatch_mono (u : Bool) (b : List KlineRecord)
    (s : List KlineRecord) {t : Nat} (h : t ∈ keyList s) :
    t ∈ keyList (upsertBatch u s b) := by
  induction b generalizing s with
  | nil => exact h
  | cons r bs ih => exact ih _ (keyList_upsertOne_mono u s r h)

theorem key_mem_upsertBatch (u : Bool) (s b : List KlineRecord)
    {r : KlineRecord} (hr : r ∈ b) :
    r.open_time ∈ keyList (upsertBatch u s b) := by
  induction b generalizing s with
  | nil => cases hr
  | cons q bs ih =>
    rcases List.mem_cons.mp hr with rfl | hr
    · exact keyList_upsertBatch_mono u bs _ (key_mem_upsertOne u s r)
    · exact ih (upsertOne u s q) hr

theorem upsertBatch_cons (u : Bool) (s : List KlineRecord) (r : KlineRecord)
    (bs : List KlineRecord) :
    upsertBatch u s (r :: bs) = upsertBatch u (upsertOne u s r) bs := rfl

theorem upsertBatch_false_noop (s b : List KlineRecord)
    (h : ∀ r ∈ b, r.open_time ∈ keyList s) :
    upsertBatch false s b = s := by
  induction b with
  | nil => rfl
  | cons r bs ih =>
    have hk : (s.any fun x => x.open_time == r.open_time) = true :=
      (mem_keyList_iff_any s _).mpr (h r (List.mem_cons_self r bs))
    have h1 : upsertOne false s r = s := by simp [upsertOne, hk]
    rw [upsertBatch_cons, h1]
    exact ih fun q hq => h q (List.mem_cons_of_mem _ hq)

theorem lastWith_mem (b : List KlineRecord) (t : Nat) (y : KlineRecord)
    (h : lastWith b t = some y) : y ∈ b ∧ y.open_time = t := by
  induction b with
  | nil => cases h
  | cons r bs ih =>
    cases hbs : lastWith bs t with
    | some z =>
      have hz : some z = some y := by
        rw [← h]
        simp [lastWith, hbs]
      cases hz
      exact ⟨List.mem_cons_of_mem _ (ih hbs).1, (ih hbs).2⟩
    | none =>
      have h2 : (if r.open_time = t then some r else none) = some y := by
        simpa [lastWith, hbs] using h
      by_cases hrt : r.open_time = t
      · rw [if_pos hrt] at h2
        cases h2
        exact ⟨List.mem_cons_self _ _, hrt⟩
      · rw [if_neg hrt] at h2
        cases h2

theorem lastWith_none (b : List KlineRecord) (t : Nat)
    (h : lastWith b t = none) : ∀ q ∈ b, q.open_time ≠ t := by
  induction b with
  | nil => exact fun q hq => absurd hq (List.not_mem_nil q)
  | cons r bs ih =>
    intro q hq
    cases hbs : lastWith bs t with
    | some z =>
      exfalso
      have : lastWith (r :: bs) t = some z := by simp [lastWith, hbs]
      rw [this] at h
      cases h
    | none =>
      have h2 : (if r.open_time = t then some r else none) = none := by
        simpa [lastWith, hbs] using h
      rcases List.mem_cons.mp hq with rfl | hq2
      · intro hqt
        rw [if_pos hqt] at h2
        cases h2
      · exact ih hbs q hq2

/-- With `update_existing` the batch behaves as a per-key overwrite: when
every batch key is already stored, the result replaces each stored row by
the last batch record with its key. -/
theorem upsertBatch_true_eq_map (b : List KlineRecord) :
    ∀ s : List KlineRecord, (∀ r ∈ b, r.open_time ∈ keyList s) →
      upsertBatch true s b = s.map fun x => (lastWith b x.open_time).getD x := by
  induction b with
  | nil =>
    intro s _
    simp [upsertBatch, lastWith]
  | cons r bs ih =>
    intro s h
    have hk : (s.any fun x => x.open_time == r.open_time) = true :=
      (mem_keyList_iff_any s _).mpr (h r (List.mem_cons_self r bs))
    have h1 : upsertOne true s r = overwriteRec s r := by simp [upsertOne, hk]
    rw [upsertBatch_cons, h1,
      ih (overwriteRec s r) fun q hq => by
        rw [keyList_overwriteRec]
        exact h q (List.mem_cons_of_mem _ hq)]
    simp only [overwriteRec, List.map_map]
    refine List.map_congr_left fun x _ => ?_
    simp only [Function.comp_apply]
    by_cases hxr : x.open_time = r.open_time
    · rw [if_pos hxr, hxr]
      cases hbs : lastWith bs r.open_time with
      | some y => simp [lastWith, hbs]
      | none => simp [lastWith, hbs]
    · rw [if_neg hxr]
      cases hbs : lastWith bs x.open_time with
      | some y => simp [lastWith, hbs]
      | none =>
        simp only [lastWith, hbs]
        rw [if_neg fun he => hxr he.symm]

theorem upsertBatch_true_key_val (bs : List KlineRecord) :
    ∀ (tst : List KlineRecord) (r : KlineRecord) (t : Nat),
      (∀ z ∈ tst, z.open_time = t → z = r) →
      (∀ q ∈ bs, q.open_time ≠ t) →
      ∀ x ∈ upsertBatch true tst bs, x.open_time = t → x = r := by
  induction bs with
  | nil => exact fun tst r t hts _ x hx hxt => hts x hx hxt
  | cons q bs2 ih =>
    intro tst r t hts hq x hx hxt
    have hqt : q.open_time ≠ t := hq q (List.mem_cons_self _ _)
    refine ih (upsertOne true tst q) r t ?_
      (fun p hp => hq p (List.mem_cons_of_mem _ hp)) x hx hxt
    intro z hz hzt
    by_cases hk : (tst.any fun xx => xx.open_time == q.open_time) = true
    · have he : upsertOne true tst q = overwriteRec tst q := by simp [upsertOne, hk]
      rw [he] at hz
      obtain ⟨w, hw, rfl⟩ := List.mem_map.mp hz
      by_cases hwq : w.open_time = q.open_time
      · rw [if_pos hwq] at hzt ⊢
        exact absurd hzt hqt
      · rw [if_neg hwq] at hzt ⊢
        exact hts w hw hzt
    · have he : upsertOne true tst q = tst ++ [q] := by simp [upsertOne, hk]
      rw [he] at hz
      rcases List.mem_append.mp hz with hz2 | hz2
      · exact hts z hz2 hzt
      · rw [List.mem_singleton.mp hz2] at hzt
        exact absurd hzt hqt

/-- After one `update_existing` pass, every stored row whose key occurs
in the batch holds the fields of the last batch record with that key. -/
theorem upsertBatch_true_last (b : List KlineRecord) :
    ∀ (s : List KlineRecord), ∀ x ∈ upsertBatch true s b,
      ∀ y, lastWith b x.open_time = some y → x = y := by
  induction b with
  | nil =>
    intro s x _ y hy
    cases hy
  | cons r bs ih =>
    intro s x hx y hy
    cases hbs : lastWith bs x.open_time with
    | some z =>
      have hz : lastWith (r :: bs) x.open_time = some z := by simp [lastWith, hbs]
      rw [hz] at hy
      cases hy
      exact ih (upsertOne true s r) x hx _ hbs
    | none =>
      have hy2 : (if r.open_time = x.open_time then some r else none) = some y := by
        simpa [lastWith, hbs] using hy
      by_cases hrt : r.open_time = x.open_time
      · rw [if_pos hrt] at hy2
        cases hy2
        have hnone : ∀ q ∈ bs, q.open_time ≠ x.open_time := lastWith_none bs _ hbs
        have hseed : ∀ z ∈ upsertOne true s r, z.open_time = x.open_time → z = r := by
          intro z hz hzt
          by_cases hk : (s.any fun xx => xx.open_time == r.open_time) = true
          · have he : upsertOne true s r = overwriteRec s r := by simp [upsertOne, hk]
            rw [he] at hz
            obtain ⟨w, hw, rfl⟩ := List.mem_map.mp hz
            by_cases hwq : w.open_time = r.open_time
            · rw [if_pos hwq]
            · rw [if_neg hwq] at hzt ⊢
              exact absurd (hzt.trans hrt.symm) hwq
          · have he : upsertOne true s r = s ++ [r] := by simp [upsertOne, hk]
            rw [he] at hz
            rcases List.mem_append.mp hz with hz2 | hz2
            · exfalso
              simp only [List.any_eq_true, beq_iff_eq, not_exists, not_and] at hk
              exact hk z hz2 (hzt.trans hrt.symm)
            · exact List.mem_singleton.mp hz2
        exact upsertBatch_true_key_val bs (upsertOne true s r) r x.open_time
          hseed hnone x hx rfl
      · rw [if_neg hrt] at hy2
        cases hy2

theorem noDupKeys_upsertOne (u : Bool) (s : List KlineRecord)
    (r : KlineRecord) (h : NoDupKeys s) : NoDupKeys (upsertOne u s r) := by
  unfold NoDupKeys at *
  by_cases hk : (s.any fun x => x.open_time == r.open_time) = true
  · cases u
    · simpa [upsertOne, hk] using h
    · have he : upsertOne true s r = overwriteRec s r := by simp [upsertOne, hk]
      rw [he, keyList_overwriteRec]
      exact h
  · have he : upsertOne u s r = s ++ [r] := by simp [upsertOne, hk]
    rw [he]
    have hnm : r.open_time ∉ keyList s := fun hmem =>
      hk ((mem_keyList_iff_any s _).mpr hmem)
    simp only [keyList, List.map_append, List.map_cons, List.map_nil]
    rw [List.nodup_append]
    exact ⟨h, List.nodup_singleton _, by simpa [keyList] using hnm⟩

theorem noDupKeys_upsertBatch (u : Bool) (s b : List KlineRecord)
    (h : NoDupKeys s) : NoDupKeys (upsertBatch u s b) := by
  induction b generalizing s with
  | nil => exact h
  | cons r bs ih => exact ih _ (noDupKeys_upsertOne u s r h)

/-- C2: the Upserter is idempotent — re-running the same batch against
the state left by its first run changes nothing, for both values of
`update_existing` — and it preserves the primary-key invariant (no two
stored records share an `open_time`). -/
theorem C2_upsert_idempotent (u : Bool) (s b : List KlineRecord)
    (h : NoDupKeys s) :
    upsertBatch u (upsertBatch u s b) b = upsertBatch u s b ∧
    NoDupKeys (upsertBatch u s b) := by
  refine ⟨?_, noDupKeys_upsertBatch u s b h⟩
  have hkeys : ∀ r ∈ b, r.open_time ∈ keyList (upsertBatch u s b) :=
    fun r hr => key_mem_upsertBatch u s b hr
  cases u
  · exact upsertBatch_false_noop _ b hkeys
  · rw [upsertBatch_true_eq_map b _ hkeys]
    have hfix : ∀ x ∈ upsertBatch true s b,
        (lastWith b x.open_time).getD x = x := by
      intro x hx
      cases hbx : lastWith b x.open_time with
      | none => rfl
      | some y => simpa using (upsertBatch_true_last b s x hx y hbx).symm
    calc (upsertBatch true s b).map (fun x => (lastWith b x.open_time).getD x)
        = (upsertBatch true s b).map id := List.map_congr_left hfix
      _ = upsertBatch true s b := List.map_id _

/-- A concrete kline record used by witnesses. -/
def sampleRec : KlineRecord :=
  { open_time := 1704067200000, openP := 42000, high := 42500, low := 41800,
    closeP := 42220, volume := 10, quote_volume := 420000, trade_count := 1000,
    active_buy_volume := 5, active_buy_quote_volume := 210000,
    close_time := 1704153599999 }

theorem C2_upsert_idempotent_witness :
    NoDupKeys [] ∧
      (upsertBatch true (upsertBatch true [] [sampleRec]) [sampleRec] =
          upsertBatch true [] [sampleRec] ∧
        NoDupKeys (upsertBatch true [] [sampleRec])) :=
  ⟨List.nodup_nil, C2_upsert_idempotent true [] [sampleRec] List.nodup_nil⟩

/-! ### SegmentPlanner (spec §4.1) -/

/-- Modelled from the spec (§4.1): chop the half-open window `[a, b)`
into consecutive fetch segments of at most `c` time units each, where
`c` is the page size times the interval duration.  A zero-length or
inverted window produces the empty list. -/
def planSegs (c : Nat) (a b : Nat) : List (Nat × Nat) :=
  if h : a < b ∧ 0 < c then
    (a, min (a + c) b) :: planSegs c (min (a + c) b) b
  else
    []
termination_by b - a
decreasing_by
  have h1 : a < min (a + c) b := lt_min (by omega) h.1
  have h2 : min (a + c) b ≤ b := min_le_right _ _
  omega

/-- Modelled from the spec (§4.1): with `update_existing=false` the
window is first clipped to start after the series' last stored
`open_time` (`tail`); otherwise the requested start is used. -/
def effStart (updateExisting : Bool) (tail : Option Nat)
    (d start : Nat) : Nat :=
  match updateExisting, tail with
  | false, some t => max start (t + d)
  | _, _ => start

/-- Modelled from the spec (§4.1): the planner output for one series —
clip the window, then chop it into page-sized segments
(`c = pageSize * d` with `d` the interval duration). -/
def planSegments (updateExisting : Bool) (tail : Option Nat)
    (d pageSize start fin : Nat) : List (Nat × Nat) :=
  planSegs (pageSize * d) (effStart updateExisting tail d start) fin

/-- Modelled from the spec: expected record count of a half-open window
at interval duration `d` (the number of cadence points in `[a, b)`,
i.e. the length divided by `d`, rounded up). -/
def expectedRecords (d a b : Nat) : Nat :=
  (b - a + d - 1) / d

theorem planSegs_empty (c a b : Nat) (h : b ≤ a) : planSegs c a b = [] := by
  rw [planSegs, dif_neg (by omega)]

theorem planSegs_mem (c a b : Nat) :
    ∀ p ∈ planSegs c a b, a ≤ p.1 ∧ p.1 < p.2 ∧ p.2 ≤ b ∧ p.2 - p.1 ≤ c := by
  induction a, b using planSegs.induct c with
  | case1 a b h ih =>
    rw [planSegs, dif_pos h]
    intro p hp
    rcases List.mem_cons.mp hp with rfl | hp
    · refine ⟨le_refl a, lt_min (by omega) h.1, min_le_right _ _, ?_⟩
      have := min_le_left (a + c) b
      omega
    · have hmono : a ≤ min (a + c) b := le_min (by omega) (le_of_lt h.1)
      have := ih p hp
      exact ⟨le_trans hmono this.1, this.2.1, this.2.2.1, this.2.2.2⟩
  | case2 a b h =>
    rw [planSegs, dif_neg h]
    intro p hp
    cases hp

theorem planSegs_cover (c a b : Nat) (hc : 0 < c) :
    ∀ t, a ≤ t → t < b → ∃ p ∈ planSegs c a b, p.1 ≤ t ∧ t < p.2 := by
  induction a, b using planSegs.induct c with
  | case1 a b h ih =>
    intro t ht1 ht2
    rw [planSegs, dif_pos h]
    by_cases hm : t < min (a + c) b
    · exact ⟨(a, min (a + c) b), List.mem_cons_self _ _, ht1, hm⟩
    · obtain ⟨p, hp, hp1, hp2⟩ := ih t (by omega) ht2
      exact ⟨p, List.mem_cons_of_mem _ hp, hp1, hp2⟩
  | case2 a b h =>
    intro t ht1 ht2
    exact absurd ⟨by omega, hc⟩ h

theorem planSegs_pairwise (c a b : Nat) :
    (planSegs c a b).Pairwise fun p q => p.2 ≤ q.1 := by
  induction a, b using planSegs.induct c with
  | case1 a b h ih =>
    rw [planSegs, dif_pos h]
    exact List.Pairwise.cons (fun q hq => (planSegs_mem c _ b q hq).1) ih
  | case2 a b h =>
    rw [planSegs, dif_neg h]
    exact List.Pairwise.nil

/-- C3: the planner's segments exactly cover the clipped request window
(clipping to after the stored tail happens exactly when
`update_existing=false`), are ascending and non-overlapping, each stays
within the page size in expected records, and a zero-length or inverted
window yields the empty list. -/
theorem C3_segment_planner (u : Bool) (tail : Option Nat)
    (d ps start fin : Nat) (hd : 0 < d) (hps : 0 < ps) :
    (∀ t, (∃ p ∈ planSegments u tail d ps start fin, p.1 ≤ t ∧ t < p.2) ↔
        effStart u tail d start ≤ t ∧ t < fin) ∧
    (∀ t0, effStart false (some t0) d start = max start (t0 + d)) ∧
    (effStart true tail d start = start) ∧
    (planSegments u tail d ps start fin).Pairwise (fun p q => p.2 ≤ q.1) ∧
    (∀ p ∈ planSegments u tail d ps start fin,
        p.1 < p.2 ∧ expectedRecords d p.1 p.2 ≤ ps) ∧
    (fin ≤ start → planSegments u tail d ps start fin = []) := by
  have hc : 0 < ps * d := Nat.mul_pos hps hd
  refine ⟨?_, fun t0 => rfl, ?_, planSegs_pairwise _ _ _, ?_, ?_⟩
  · intro t
    constructor
    · rintro ⟨p, hp, hp1, hp2⟩
      have := planSegs_mem (ps * d) _ fin p hp
      exact ⟨le_trans this.1 hp1, lt_of_lt_of_le hp2 this.2.2.1⟩
    · rintro ⟨h1, h2⟩
      exact planSegs_cover (ps * d) _ fin hc t h1 h2
  · cases tail <;> rfl
  · intro p hp
    have hb := planSegs_mem (ps * d) _ fin p hp
    refine ⟨hb.2.1, ?_⟩
    have hlen : p.2 - p.1 ≤ ps * d := hb.2.2.2
    have : (p.2 - p.1 + d - 1) / d < ps + 1 := by
      rw [Nat.div_lt_iff_lt_mul hd]
      have : (ps + 1) * d = ps * d + d := by ring
      omega
    unfold expectedRecords
    omega
  · intro hle
    have : fin ≤ effStart u tail d start := by
      unfold effStart
      cases u <;> cases tail <;> simp <;> omega
    exact planSegs_empty _ _ _ this

theorem C3_segment_planner_witness :
    (0 < 1 ∧ 0 < 2) ∧
      ((∀ t, (∃ p ∈ planSegments false none 1 2 0 5, p.1 ≤ t ∧ t < p.2) ↔
          effStart false none 1 0 ≤ t ∧ t < 5) ∧
       (∀ t0, effStart false (some t0) 1 0 = max 0 (t0 + 1)) ∧
       (effStart true none 1 0 = 0) ∧
       (planSegments false none 1 2 0 5).Pairwise (fun p q => p.2 ≤ q.1) ∧
       (∀ p ∈ planSegments false none 1 2 0 5,
           p.1 < p.2 ∧ expectedRecords 1 p.1 p.2 ≤ 2) ∧
       ((5 : Nat) ≤ 0 → planSegments false none 1 2 0 5 = [])) :=
  ⟨⟨by decide, by decide⟩,
   C3_segment_planner false none 1 2 0 5 (by decide) (by decide)⟩

/-- The planner evaluated on a small concrete request: the window
`[0, 5)` at duration 1 and page size 2 splits into `[0,2) [2,4) [4,5)`. -/
theorem planSegments_example :
    planSegments false none 1 2 0 5 = [(0, 2), (2, 4), (4, 5)] := by
  show planSegs 2 0 5 = [(0, 2), (2, 4), (4, 5)]
  rw [planSegs, dif_pos (by omega : (0:Nat) < 5 ∧ (0:Nat) < 2)]
  norm_num
  rw [planSegs, dif_pos (by omega : (2:Nat) < 5 ∧ (0:Nat) < 2)]
  norm_num
  rw [planSegs, dif_pos (by omega : (4:Nat) < 5 ∧ (0:Nat) < 2)]
  norm_num
  rw [planSegs, dif_neg (by omega)]

/-! ### Scheduler retry policy (spec §4.2, §7) -/

/-- Modelled from the spec (§4.3): the classified result of one fetch
attempt, as seen by the Scheduler's retry logic. -/
inductive FetchOutcome where
  | ok (records : List KlineRecord)
  | rateLimited
  | transientErr
  | clientErr
  deriving DecidableEq, Repr

/-- Modelled from the spec (§2.7/§4.2): how the Scheduler leaves a
segment. -/
inductive SegEnd where
  | fetched (records : List KlineRecord)
  | failedRetries
  | failedClient
  deriving DecidableEq, Repr

/-- Modelled from the spec (§4.2): process one segment.  `fetch n` is the
classified result of attempt number `n`; `budget` is the number of
retries still allowed.  Rate-limit and transient errors are retried
(after backoff, which does not affect the outcome) while retries remain;
a client error abandons the segment at once.  Returns the segment's end
state and the total number of attempts made. -/
def runSegAux (fetch : Nat → FetchOutcome) : Nat → Nat → SegEnd × Nat
  | budget, attempt =>
    match fetch attempt, budget with
    | .ok rs, _ => (.fetched rs, attempt + 1)
    | .clientErr, _ => (.failedClient, attempt + 1)
    | .rateLimited, 0 => (.failedRetries, attempt + 1)
    | .rateLimited, b + 1 => runSegAux fetch b (attempt + 1)
    | .transientErr, 0 => (.failedRetries, attempt + 1)
    | .transientErr, b + 1 => runSegAux fetch b (attempt + 1)

/-- Modelled from the spec (§4.2): run a segment with the configured
`max_retries` retry budget, starting at attempt 0. -/
def runSegment (fetch : Nat → FetchOutcome) (maxRetries : Nat) : SegEnd × Nat :=
  runSegAux fetch maxRetries 0

theorem runSegAux_rateLimited (m a : Nat) :
    runSegAux (fun _ => FetchOutcome.rateLimited) m a =
      (SegEnd.failedRetries, a + m + 1) := by
  induction m generalizing a with
  | zero => rfl
  | succ b ih =>
    show runSegAux _ b (a + 1) = _
    rw [ih (a + 1)]
    congr 1
    omega

theorem runSegAux_attempts_le (fetch : Nat → FetchOutcome) (m a : Nat) :
    (runSegAux fetch m a).2 ≤ a + m + 1 := by
  induction m generalizing a with
  | zero =>
    unfold runSegAux
    cases fetch a <;> simp
  | succ b ih =>
    unfold runSegAux
    cases fetch a <;> simp
    · exact le_trans (ih (a + 1)) (by omega)
    · exact le_trans (ih (a + 1)) (by omega)

/-- C4: a segment whose every fetch attempt is rate-limited is retried
exactly `max_retries` times (so `max_retries + 1` attempts in total) and
then marked failed; and no fetch behaviour whatsoever makes the
Scheduler exceed `max_retries` retries on a segment, so segment
processing always terminates. -/
theorem C4_retry_bound (fetch : Nat → FetchOutcome) (maxRetries : Nat)
    (hrl : ∀ n, fetch n = FetchOutcome.rateLimited) :
    runSegment fetch maxRetries = (SegEnd.failedRetries, maxRetries + 1) ∧
    (∀ g : Nat → FetchOutcome, (runSegment g maxRetries).2 ≤ maxRetries + 1) := by
  constructor
  · have hfe : fetch = fun _ => FetchOutcome.rateLimited := funext hrl
    rw [runSegment, hfe, runSegAux_rateLimited]
    congr 1
    omega
  · intro g
    have := runSegAux_attempts_le g maxRetries 0
    show (runSegAux g maxRetries 0).2 ≤ maxRetries + 1
    omega

theorem C4_retry_bound_witness :
    (∀ n : Nat, (fun _ : Nat => FetchOutcome.rateLimited) n =
        FetchOutcome.rateLimited) ∧
      (runSegment (fun _ => FetchOutcome.rateLimited) 3 =
          (SegEnd.failedRetries, 3 + 1) ∧
        ∀ g : Nat → FetchOutcome, (runSegment g 3).2 ≤ 3 + 1) :=
  ⟨fun _ => rfl, C4_retry_bound (fun _ => FetchOutcome.rateLimited) 3 fun _ => rfl⟩

/-! ### Task-level error propagation (spec §4.2, §7) -/

/-- Task status of a `DownloadTask` (spec §3). -/
inductive TaskStatus where
  | running
  | completed
  | failed
  deriving DecidableEq, Repr

/-- The aggregate progress record of one submitted intent (spec §3,
`DownloadTask`); `error_summary` is kept structured as the list of
segment error messages. -/
structure DownloadTask where
  status : TaskStatus
  segments_total : Nat
  segments_done : Nat
  records_written : Nat
  error_summary : List String
  deriving DecidableEq, Repr

/-- The outcome the fetch/upsert pipeline reports for one segment. -/
inductive SegOutcome where
  | success (records : Nat)
  | segFail (msg : String)
  | storageFail (msg : String)
  deriving DecidableEq, Repr

def isSucc : SegOutcome → Bool
  | .success _ => true
  | _ => false

def isSegFail : SegOutcome → Bool
  | .segFail _ => true
  | _ => false

def isStorageFail : SegOutcome → Bool
  | .storageFail _ => true
  | _ => false

/-- Records written by a list of segment outcomes. -/
def sumRecords : List SegOutcome → Nat
  | [] => 0
  | .success n :: rest => n + sumRecords rest
  | _ :: rest => sumRecords rest

/-- Error messages of the non-retryable segment failures, in order. -/
def failMsgs : List SegOutcome → List String
  | [] => []
  | .segFail m :: rest => m :: failMsgs rest
  | _ :: rest => failMsgs rest

/-- Number of successful segments. -/
def countSucc : List SegOutcome → Nat
  | [] => 0
  | .success _ :: rest => 1 + countSucc rest
  | _ :: rest => countSucc rest

/-- Modelled from the spec (§4.2 and §7): drain the segments of one task.
A storage failure aborts the whole task as `failed`; a segment failure is
recorded in the error summary and processing continues with the next
segment; at the end the task is `failed` only when no segment succeeded
and at least one failed, otherwise `completed`. -/
def runTaskAux (total : Nat) :
    List SegOutcome → Nat → Nat → Nat → List String → DownloadTask
  | [], done, written, succ, errs =>
    { status := if succ = 0 ∧ errs ≠ [] then .failed else .completed,
      segments_total := total, segments_done := done,
      records_written := written, error_summary := errs }
  | .success n :: rest, done, written, succ, errs =>
    runTaskAux total rest (done + 1) (written + n) (succ + 1) errs
  | .segFail m :: rest, done, written, succ, errs =>
    runTaskAux total rest (done + 1) written succ (errs ++ [m])
  | .storageFail m :: rest, done, written, _, errs =>
    { status := .failed, segments_total := total, segments_done := done,
      records_written := written, error_summary := errs ++ [m] }

/-- Modelled from the spec: run one task over its segment outcomes. -/
def runTask (outs : List SegOutcome) : DownloadTask :=
  runTaskAux outs.length outs 0 0 0 []

theorem runTaskAux_done (outs : List SegOutcome) (total : Nat) :
    ∀ (done written succ : Nat) (errs : List String),
      (∀ o ∈ outs, isStorageFail o = false) →
      (runTaskAux total outs done written succ errs).segments_done =
        done + outs.length := by
  induction outs with
  | nil =>
    intro done written succ errs _
    simp [runTaskAux]
  | cons o rest ih =>
    intro done written succ errs h
    cases o with
    | success n =>
      have := ih (done + 1) (written + n) (succ + 1) errs
        fun q hq => h q (List.mem_cons_of_mem _ hq)
      show (runTaskAux total rest (done + 1) (written + n) (succ + 1)
          errs).segments_done = _
      rw [this]
      simp only [List.length_cons]
      omega
    | segFail m =>
      have := ih (done + 1) written succ (errs ++ [m])
        fun q hq => h q (List.mem_cons_of_mem _ hq)
      show (runTaskAux total rest (done + 1) written succ
          (errs ++ [m])).segments_done = _
      rw [this]
      simp only [List.length_cons]
      omega
    | storageFail m =>
      exact absurd (h _ (List.mem_cons_self _ _)) (by simp [isStorageFail])

theorem runTaskAux_written (outs : List SegOutcome) (total : Nat) :
    ∀ (done written succ : Nat) (errs : List String),
      (∀ o ∈ outs, isStorageFail o = false) →
      (runTaskAux total outs done written succ errs).records_written =
        written + sumRecords outs := by
  induction outs with
  | nil =>
    intro done written succ errs _
    simp [runTaskAux, sumRecords]
  | cons o rest ih =>
    intro done written succ errs h
    cases o with
    | success n =>
      have := ih (done + 1) (written + n) (succ + 1) errs
        fun q hq => h q (List.mem_cons_of_mem _ hq)
      show (runTaskAux total rest (done + 1) (written + n) (succ + 1)
          errs).records_written = _
      rw [this]
      simp only [sumRecords]
      omega
    | segFail m =>
      have := ih (done + 1) written succ (errs ++ [m])
        fun q hq => h q (List.mem_cons_of_mem _ hq)
      show (runTaskAux total rest (done + 1) written succ
          (errs ++ [m])).records_written = _
      rw [this]
      simp only [sumRecords]
    | storageFail m =>
      exact absurd (h _ (List.mem_cons_self _ _)) (by simp [isStorageFail])

theorem runTaskAux_summary (outs : List SegOutcome) (total : Nat) :
    ∀ (done written succ : Nat) (errs : List String),
      (∀ o ∈ outs, isStorageFail o = false) →
      (runTaskAux total outs done written succ errs).error_summary =
        errs ++ failMsgs outs := by
  induction outs with
  | nil =>
    intro done written succ errs _
    simp [runTaskAux, failMsgs]
  | cons o rest ih =>
    intro done written succ errs h
    cases o with
    | success n =>
      have := ih (done + 1) (written + n) (succ + 1) errs
        fun q hq => h q (List.mem_cons_of_mem _ hq)
      show (runTaskAux total rest (done + 1) (written + n) (succ + 1)
          errs).error_summary = _
      rw [this]
      simp [failMsgs]
    | segFail m =>
      have := ih (done + 1) written succ (errs ++ [m])
        fun q hq => h q (List.mem_cons_of_mem _ hq)
      show (runTaskAux total rest (done + 1) written succ
          (errs ++ [m])).error_summary = _
      rw [this]
      simp [failMsgs]
    | storageFail m =>
      exact absurd (h _ (List.mem_cons_self _ _)) (by simp [isStorageFail])

theorem runTaskAux_status (outs : List SegOutcome) (total : Nat) :
    ∀ (done written succ : Nat) (errs : List String),
      (∀ o ∈ outs, isStorageFail o = false) →
      ((runTaskAux total outs done written succ errs).status = .failed ↔
        succ + countSucc outs = 0 ∧ errs ++ failMsgs outs ≠ []) := by
  induction outs with
  | nil =>
    intro done written succ errs _
    simp only [runTaskAux, countSucc, failMsgs, List.append_nil, Nat.add_zero]
    by_cases hc : succ = 0 ∧ errs ≠ []
    · rw [if_pos hc]
      simpa using hc
    · rw [if_neg hc]
      constructor
      · intro heq
        cases heq
      · intro hrhs
        exact absurd hrhs hc
  | cons o rest ih =>
    intro done written succ errs h
    cases o with
    | success n =>
      have := ih (done + 1) (written + n) (succ + 1) errs
        fun q hq => h q (List.mem_cons_of_mem _ hq)
      show (runTaskAux total rest (done + 1) (written + n) (succ + 1)
          errs).status = .failed ↔ _
      rw [this]
      simp only [countSucc]
      exact and_congr (by omega) Iff.rfl
    | segFail m =>
      have := ih (done + 1) written succ (errs ++ [m])
        fun q hq => h q (List.mem_cons_of_mem _ hq)
      show (runTaskAux total rest (done + 1) written succ
          (errs ++ [m])).status = .failed ↔ _
      rw [this]
      simp only [countSucc, failMsgs, List.append_assoc, List.singleton_append]
    | storageFail m =>
      exact absurd (h _ (List.mem_cons_self _ _)) (by simp [isStorageFail])

theorem countSucc_pos {outs : List SegOutcome}
    (h : ∃ o ∈ outs, isSucc o = true) : 0 < countSucc outs := by
  induction outs with
  | nil => simp at h
  | cons o rest ih =>
    obtain ⟨q, hq, hsq⟩ := h
    rcases List.mem_cons.mp hq with rfl | hq2
    · cases q with
      | success n => simp [countSucc]
      | segFail m => simp [isSucc] at hsq
      | storageFail m => simp [isSucc] at hsq
    · have := ih ⟨q, hq2, hsq⟩
      cases o <;> simp [countSucc] <;> omega

theorem countSucc_eq_zero {outs : List SegOutcome}
    (h : countSucc outs = 0) : ∀ o ∈ outs, isSucc o = false := by
  induction outs with
  | nil => exact fun o ho => absurd ho (List.not_mem_nil o)
  | cons q rest ih =>
    intro o ho
    cases q with
    | success n => simp [countSucc] at h
    | segFail m =>
      rcases List.mem_cons.mp ho with rfl | ho2
      · rfl
      · exact ih (by simpa [countSucc] using h) o ho2
    | storageFail m =>
      rcases List.mem_cons.mp ho with rfl | ho2
      · rfl
      · exact ih (by simpa [countSucc] using h) o ho2

theorem failMsgs_ne_nil {outs : List SegOutcome}
    (h : ∃ o ∈ outs, isSegFail o = true) : failMsgs outs ≠ [] := by
  induction outs with
  | nil => simp at h
  | cons q rest ih =>
    obtain ⟨o, ho, hso⟩ := h
    rcases List.mem_cons.mp ho with rfl | ho2
    · cases o with
      | success n => simp [isSegFail] at hso
      | segFail m => simp [failMsgs]
      | storageFail m => simp [isSegFail] at hso
    · have := ih ⟨o, ho2, hso⟩
      cases q <;> simp [failMsgs] <;> assumption

theorem runTaskAux_status_cases (outs : List SegOutcome) (total : Nat) :
    ∀ (done written succ : Nat) (errs : List String),
      (runTaskAux total outs done written succ errs).status = .failed ∨
      (runTaskAux total outs done written succ errs).status = .completed := by
  induction outs with
  | nil =>
    intro done written succ errs
    simp only [runTaskAux]
    by_cases hc : succ = 0 ∧ errs ≠ []
    · rw [if_pos hc]
      exact Or.inl rfl
    · rw [if_neg hc]
      exact Or.inr rfl
  | cons o rest ih =>
    intro done written succ errs
    cases o with
    | success n => exact ih (done + 1) (written + n) (succ + 1) errs
    | segFail m => exact ih (done + 1) written succ (errs ++ [m])
    | storageFail m => exact Or.inl rfl

/-- C5: when storage stays reachable, a non-retryable segment failure
does not stop the run — every segment is processed and exactly the
failures land in the error summary — and a task with at least one
successful and at least one failed segment ends `completed` with a
non-empty error summary; moreover, for any task at all, a `failed`
status implies that no segment succeeded or that storage failed. -/
theorem C5_error_propagation (outs : List SegOutcome)
    (hns : ∀ o ∈ outs, isStorageFail o = false)
    (hs : ∃ o ∈ outs, isSucc o = true)
    (hf : ∃ o ∈ outs, isSegFail o = true) :
    (runTask outs).segments_done = outs.length ∧
    (runTask outs).records_written = sumRecords outs ∧
    (runTask outs).error_summary = failMsgs outs ∧
    (runTask outs).status = .completed ∧
    (runTask outs).error_summary ≠ [] ∧
    (∀ outs2 : List SegOutcome, (runTask outs2).status = .failed →
        (∀ o ∈ outs2, isSucc o = false) ∨ ∃ o ∈ outs2, isStorageFail o = true) := by
  have hdone := runTaskAux_done outs outs.length 0 0 0 [] hns
  have hwr := runTaskAux_written outs outs.length 0 0 0 [] hns
  have hsum := runTaskAux_summary outs outs.length 0 0 0 [] hns
  have hstat := runTaskAux_status outs outs.length 0 0 0 [] hns
  have hpos := countSucc_pos hs
  refine ⟨by simpa using hdone, by simpa using hwr, by simpa using hsum,
    ?_, ?_, ?_⟩
  · rcases runTaskAux_status_cases outs outs.length 0 0 0 [] with hcase | hcase
    · rw [hstat] at hcase
      omega
    · exact hcase
  · rw [show (runTask outs).error_summary = failMsgs outs from by simpa using hsum]
    exact failMsgs_ne_nil hf
  · intro outs2 hfail
    by_cases hst : ∃ o ∈ outs2, isStorageFail o = true
    · exact Or.inr hst
    · left
      have hns2 : ∀ o ∈ outs2, isStorageFail o = false := by
        intro o ho
        by_contra hc
        exact hst ⟨o, ho, by simpa using hc⟩
      have := (runTaskAux_status outs2 outs2.length 0 0 0 [] hns2).mp hfail
      exact countSucc_eq_zero (by omega)

theorem C5_error_propagation_witness :
    (∀ o ∈ [SegOutcome.success 10, SegOutcome.segFail "bad symbol"],
        isStorageFail o = false) ∧
    (∃ o ∈ [SegOutcome.success 10, SegOutcome.segFail "bad symbol"],
        isSucc o = true) ∧
    (∃ o ∈ [SegOutcome.success 10, SegOutcome.segFail "bad symbol"],
        isSegFail o = true) ∧
      ((runTask [SegOutcome.success 10, SegOutcome.segFail "bad symbol"]).segments_done =
          [SegOutcome.success 10, SegOutcome.segFail "bad symbol"].length ∧
       (runTask [SegOutcome.success 10, SegOutcome.segFail "bad symbol"]).records_written =
          sumRecords [SegOutcome.success 10, SegOutcome.segFail "bad symbol"] ∧
       (runTask [SegOutcome.success 10, SegOutcome.segFail "bad symbol"]).error_summary =
          failMsgs [SegOutcome.success 10, SegOutcome.segFail "bad symbol"] ∧
       (runTask [SegOutcome.success 10, SegOutcome.segFail "bad symbol"]).status =
          .completed ∧
       (runTask [SegOutcome.success 10, SegOutcome.segFail "bad symbol"]).error_summary ≠ [] ∧
       (∀ outs2 : List SegOutcome, (runTask outs2).status = .failed →
          (∀ o ∈ outs2, isSucc o = false) ∨ ∃ o ∈ outs2, isStorageFail o = true)) :=
  ⟨by decide, by decide, by decide,
   C5_error_propagation [SegOutcome.success 10, SegOutcome.segFail "bad symbol"]
     (by decide) (by decide) (by decide)⟩

/-! ### IntegrityChecker: missing dates at calendar cadence (spec §4.5) -/

/-- A calendar date, as used by the daily/weekly/monthly kline series
(`trade_date` granularity of the integrity check). -/
structure Date where
  y : Nat
  m : Nat
  d : Nat
  deriving DecidableEq, Repr

/-- Gregorian leap-year rule (the calendar the exchange uses). -/
def isLeap (y : Nat) : Bool :=
  (y % 4 == 0 && y % 100 != 0) || y % 400 == 0

def daysInMonth (y m : Nat) : Nat :=
  if m = 2 then (if isLeap y then 29 else 28)
  else if m = 4 ∨ m = 6 ∨ m = 9 ∨ m = 11 then 30
  else 31

/-- The next calendar day. -/
def nextDay (t : Date) : Date :=
  if t.d < daysInMonth t.y t.m then ⟨t.y, t.m, t.d + 1⟩
  else if t.m < 12 then ⟨t.y, t.m + 1, 1⟩
  else ⟨t.y + 1, 1, 1⟩

/-- Weekly cadence step: seven calendar days. -/
def weekStep (t : Date) : Date :=
  nextDay^[7] t

/-- Monthly cadence step: same day of the next calendar month (the
month boundary the exchange opens its `1M` klines on), not a fixed
30-day duration. -/
def monthStep (t : Date) : Date :=
  if t.m < 12 then ⟨t.y, t.m + 1, t.d⟩ else ⟨t.y + 1, 1, t.d⟩

/-- Lexicographic date comparison. -/
def dateLE (a b : Date) : Bool :=
  decide (a.y < b.y) ||
    (a.y == b.y &&
      (decide (a.m < b.m) || (a.m == b.m && decide (a.d ≤ b.d))))

/-- Modelled from the spec (§4.5): the full expected sequence of cadence
points from `cur` up to `stop`, generated by the interval's dedicated
cadence-stepping function (`fuel` bounds the enumeration). -/
def expectedSeq (step : Date → Date) : Nat → Date → Date → List Date
  | 0, _, _ => []
  | fuel + 1, cur, stop =>
    if dateLE cur stop then cur :: expectedSeq step fuel (step cur) stop
    else []

/-- Modelled from the spec (§4.5): `missing_timestamps` — every expected
cadence point between start and end that is absent from storage, in
order. -/
def missingTimestamps (step : Date → Date) (fuel : Nat) (start stop : Date)
    (stored : List Date) : List Date :=
  (expectedSeq step fuel start stop).filter fun t => !(stored.contains t)

/-- Calendar distance in days from `a` to `b` (bounded by `fuel`). -/
def daysUntil : Nat → Date → Date → Nat
  | 0, _, _ => 0
  | fuel + 1, a, b => if a = b then 0 else 1 + daysUntil fuel (nextDay a) b

/-- C6: `missing_timestamps` is exactly the set of expected cadence
points absent from storage (in cadence order); the 1d series stored at
days 1,2,4,5 of January 2024 yields exactly day 3; and the week/month
cadences follow the exchange's calendar: the monthly boundaries after
2024-01-01 are the firsts of the following months, at the non-constant
true month lengths (31 then 29 days in early 2024), and the weekly step
is exactly seven calendar days. -/
theorem C6_missing_timestamps (step : Date → Date) (fuel : Nat)
    (start stop : Date) (stored : List Date) :
    (∀ t, t ∈ missingTimestamps step fuel start stop stored ↔
        t ∈ expectedSeq step fuel start stop ∧ t ∉ stored) ∧
    missingTimestamps nextDay 10 ⟨2024, 1, 1⟩ ⟨2024, 1, 5⟩
        [⟨2024, 1, 1⟩, ⟨2024, 1, 2⟩, ⟨2024, 1, 4⟩, ⟨2024, 1, 5⟩] =
      [⟨2024, 1, 3⟩] ∧
    expectedSeq monthStep 4 ⟨2024, 1, 1⟩ ⟨2024, 3, 1⟩ =
      [⟨2024, 1, 1⟩, ⟨2024, 2, 1⟩, ⟨2024, 3, 1⟩] ∧
    daysUntil 100 ⟨2024, 1, 1⟩ ⟨2024, 2, 1⟩ = 31 ∧
    daysUntil 100 ⟨2024, 2, 1⟩ ⟨2024, 3, 1⟩ = 29 ∧
    weekStep ⟨2024, 2, 26⟩ = ⟨2024, 3, 4⟩ := by
  refine ⟨?_, by decide, by decide, by decide, by decide, by decide⟩
  intro t
  simp [missingTimestamps, List.mem_filter]

/-! ### IntegrityChecker: OHLC data-quality rules (spec §3, §4.5) -/

/-- Modelled from the spec (§3 invariant, §4.5 data-quality check): the
violated rules of one record, each recorded by name (the strings shown
in the frontend's `invalid_price_data[].issues`). -/
def recordIssues (r : KlineRecord) : List String :=
  (if r.high < r.low then ["invalid_price_data: high < low"] else []) ++
  (if r.openP < r.low ∨ r.high < r.openP then
      ["invalid_price_data: open outside range"] else []) ++
  (if r.closeP < r.low ∨ r.high < r.closeP then
      ["invalid_price_data: close outside range"] else []) ++
  (if r.openP < 0 ∨ r.high < 0 ∨ r.low < 0 ∨ r.closeP < 0 ∨ r.volume < 0 then
      ["invalid_price_data: negative value"] else []) ++
  (if r.volume = 0 ∧ r.openP ≠ r.closeP then
      ["zero volume with price movement"] else [])

/-- Modelled from the spec (§4.5): the report's quality issues — one
`(open_time, violated_rule)` entry per violated rule per stored record,
produced only when the data-quality check is enabled. -/
def qualityIssues (checkDataQuality : Bool) (records : List KlineRecord) :
    List (Nat × String) :=
  if checkDataQuality then
    records.bind fun r => (recordIssues r).map fun msg => (r.open_time, msg)
  else []

/-- C7: with the data-quality check enabled, every stored record with
`high < low` appears in the report's quality issues flagged with the
`high < low` rule, whatever its other fields hold. -/
theorem C7_high_low_flagged (records : List KlineRecord) (r : KlineRecord)
    (hr : r ∈ records) (hhl : r.high < r.low) :
    (r.open_time, "invalid_price_data: high < low") ∈
      qualityIssues true records := by
  rw [qualityIssues, if_pos rfl]
  rw [List.mem_bind]
  refine ⟨r, hr, ?_⟩
  rw [List.mem_map]
  refine ⟨"invalid_price_data: high < low", ?_, rfl⟩
  rw [recordIssues]
  apply List.mem_append_left
  apply List.mem_append_left
  apply List.mem_append_left
  apply List.mem_append_left
  rw [if_pos hhl]
  exact List.mem_singleton_self _

/-- A record with swapped high/low, used by the C7 witness. -/
def badRec : KlineRecord :=
  { sampleRec with high := 41800, low := 42500 }

theorem C7_high_low_flagged_witness :
    badRec ∈ [badRec] ∧ badRec.high < badRec.low ∧
      (badRec.open_time, "invalid_price_data: high < low") ∈
        qualityIssues true [badRec] :=
  ⟨List.mem_singleton_self _, by decide,
   C7_high_low_flagged [badRec] badRec (List.mem_singleton_self _) (by decide)⟩

/-! ### Reconciler (spec §4.6, §8; frontend recheckResult shape) -/

/-- The per-side statistics the recheck gathers for the flagged window
(cf. the frontend's `local_data`/`exchange_data` record counts and
duplicate counts). -/
structure RecheckStats where
  record_count : Nat
  duplicates : Nat
  missing : Nat
  deriving DecidableEq, Repr

/-- Modelled from the spec (§4.6): the per-symbol conclusion classes. -/
inductive Conclusion where
  | localDataIssue
  | exchangeAnomaly
  | bothIssues
  | missingFixable
  | consistent
  deriving DecidableEq, Repr

/-- A side is clean when the re-fetched window shows no duplicates and
no gaps. -/
def cleanStats (s : RecheckStats) : Bool :=
  s.duplicates == 0 && s.missing == 0

/-- The local store shows an issue: more records than the exchange, or
duplicates, or gaps. -/
def localIssueFlag (loc exch : RecheckStats) : Bool :=
  decide (exch.record_count < loc.record_count) ||
    decide (0 < loc.duplicates) || decide (0 < loc.missing)

/-- Modelled from the spec (§4.6): assign blame for one flagged symbol.
Local issues against a clean exchange are a local data issue; a dirty
exchange answer is an exchange-side anomaly (or both-issues when the
local side is also suspect); a clean shortfall on the local side is
fixable by redownload. -/
def classify (loc exch : RecheckStats) : Conclusion :=
  if localIssueFlag loc exch && cleanStats exch then .localDataIssue
  else if !cleanStats exch && !localIssueFlag loc exch then .exchangeAnomaly
  else if !cleanStats exch && localIssueFlag loc exch then .bothIssues
  else if loc.record_count < exch.record_count then .missingFixable
  else .consistent

/-- The reconciliation result consumed by the frontend
(`recheckResult`): total plus the per-class symbol lists. -/
structure RecheckSummary where
  total_rechecked : Nat
  local_data_issues : List String
  exchange_api_issues : List String
  both_issues : List String
  fixed_by_redownload : List String
  deriving DecidableEq, Repr

/-- Modelled from the spec (§4.6, §8): classify every flagged symbol.  A
local data issue is "safe to delete-and-redownload the window", so such
symbols are collected in `fixed_by_redownload` together with the plain
local-shortfall cases. -/
def reconcile (entries : List (String × RecheckStats × RecheckStats)) :
    RecheckSummary :=
  { total_rechecked := entries.length,
    local_data_issues :=
      (entries.filter fun e => classify e.2.1 e.2.2 == .localDataIssue).map (·.1),
    exchange_api_issues :=
      (entries.filter fun e => classify e.2.1 e.2.2 == .exchangeAnomaly).map (·.1),
    both_issues :=
      (entries.filter fun e => classify e.2.1 e.2.2 == .bothIssues).map (·.1),
    fixed_by_redownload :=
      (entries.filter fun e => classify e.2.1 e.2.2 == .localDataIssue ||
        classify e.2.1 e.2.2 == .missingFixable).map (·.1) }

/-- C8: whenever the local store holds more records than the exchange
for the rechecked window and the exchange's answer is clean, the
symbol's conclusion is the local-data-issue class and the symbol appears
in `fixed_by_redownload` (and in `local_data_issues`). -/
theorem C8_reconciler_local_issue (sym : String) (loc exch : RecheckStats)
    (entries : List (String × RecheckStats × RecheckStats))
    (hmem : (sym, loc, exch) ∈ entries)
    (hcount : exch.record_count < loc.record_count)
    (hdup : exch.duplicates = 0) (hmiss : exch.missing = 0) :
    classify loc exch = .localDataIssue ∧
    sym ∈ (reconcile entries).fixed_by_redownload ∧
    sym ∈ (reconcile entries).local_data_issues := by
  have hcl : classify loc exch = .localDataIssue := by
    rw [classify, if_pos]
    simp [localIssueFlag, cleanStats, hcount, hdup, hmiss]
  refine ⟨hcl, ?_, ?_⟩
  · show sym ∈ (entries.filter fun e => classify e.2.1 e.2.2 == .localDataIssue ||
      classify e.2.1 e.2.2 == .missingFixable).map (·.1)
    rw [List.mem_map]
    refine ⟨(sym, loc, exch), ?_, rfl⟩
    rw [List.mem_filter]
    exact ⟨hmem, by simp [hcl]⟩
  · show sym ∈ (entries.filter fun e =>
      classify e.2.1 e.2.2 == .localDataIssue).map (·.1)
    rw [List.mem_map]
    refine ⟨(sym, loc, exch), ?_, rfl⟩
    rw [List.mem_filter]
    exact ⟨hmem, by simp [hcl]⟩

theorem C8_reconciler_local_issue_witness :
    ("BTCUSDT", RecheckStats.mk 11 1 0, RecheckStats.mk 10 0 0) ∈
        [("BTCUSDT", RecheckStats.mk 11 1 0, RecheckStats.mk 10 0 0)] ∧
    (RecheckStats.mk 10 0 0).record_count < (RecheckStats.mk 11 1 0).record_count ∧
    (RecheckStats.mk 10 0 0).duplicates = 0 ∧
    (RecheckStats.mk 10 0 0).missing = 0 ∧
      (classify (RecheckStats.mk 11 1 0) (RecheckStats.mk 10 0 0) =
          .localDataIssue ∧
        "BTCUSDT" ∈ (reconcile
          [("BTCUSDT", RecheckStats.mk 11 1 0, RecheckStats.mk 10 0 0)]).fixed_by_redownload ∧
        "BTCUSDT" ∈ (reconcile
          [("BTCUSDT", RecheckStats.mk 11 1 0, RecheckStats.mk 10 0 0)]).local_data_issues) :=
  ⟨List.mem_singleton_self _, by decide, rfl, rfl,
   C8_reconciler_local_issue "BTCUSDT" (RecheckStats.mk 11 1 0)
     (RecheckStats.mk 10 0 0)
     [("BTCUSDT", RecheckStats.mk 11 1 0, RecheckStats.mk 10 0 0)]
     (List.mem_singleton_self _) (by decide) rfl rfl⟩

end CryptoData

namespace CryptoData

/-- C1 helper: `parse_table_name` inverts the `f'K{interval}{symbol}'`
construction for every supported interval and non-empty symbol, so the
table name consists of the prefix, the code and the symbol and nothing
else. -/
theorem parse_tableName (i : Interval) (s : String) (hs : s ≠ "") :
    parseTableName (tableName i s) = some (i.code, s) := by
  have hdata : s.data ≠ [] := fun h => hs (by cases s; simp_all)
  cases i <;>
    · simp only [parseTableName, tableName, Interval.code, String.data_append]
      cases hd : s.data with
      | nil => exact absurd hd hdata
      | cons a l =>
        simp [hd, String.mk, List.takeWhile, List.dropWhile]
        exact ⟨by decide, by rw [← hd]⟩

/-- C1: for every supported interval code and every symbol, the storage
unit (table) name is exactly `"K" ++ code ++ symbol` — one `K`, the
interval code, the symbol, and no other characters (witnessed by the
length equation and by `parse_table_name` recovering the two parts) —
and `1d`/`BTCUSDT` maps to `K1dBTCUSDT`. -/
theorem C1_storage_unit_naming (i : Interval) (s : String) (hs : s ≠ "") :
    tableName i s = "K" ++ i.code ++ s ∧
    (tableName i s).length = 1 + i.code.length + s.length ∧
    parseTableName (tableName i s) = some (i.code, s) ∧
    tableName Interval.i1d "BTCUSDT" = "K1dBTCUSDT" := by
  refine ⟨rfl, ?_, parse_tableName i s hs, by decide⟩
  simp only [tableName, String.length_append]
  rfl

theorem C1_storage_unit_naming_witness :
    ("BTCUSDT" : String) ≠ "" ∧
      (tableName Interval.i1d "BTCUSDT" = "K" ++ Interval.i1d.code ++ "BTCUSDT" ∧
       (tableName Interval.i1d "BTCUSDT").length =
         1 + Interval.i1d.code.length + ("BTCUSDT" : String).length ∧
       parseTableName (tableName Interval.i1d "BTCUSDT") =
         some (Interval.i1d.code, "BTCUSDT") ∧
       tableName Interval.i1d "BTCUSDT" = "K1dBTCUSDT") :=
  ⟨by decide, C1_storage_unit_naming Interval.i1d "BTCUSDT" (by decide)⟩

/-! ### C9: delete response rendering (DeleteForm.tsx, handleDelete) -/

/-- The inner ternary of DeleteForm.tsx line 85:
`deleted_count === -1 ? '整个表' : deleted_count + ' 条记录'`. -/
def deleteCountText (deleted_count : Int) : String :=
  if deleted_count = -1 then "整个表" else toString deleted_count ++ " 条记录"

/-- The success message of DeleteForm.tsx `handleDelete`:
`data.message || ('成功删除 ' + ...)`; an absent or empty (falsy)
`message` falls back to the `deleted_count`-based text. -/
def deleteSuccessText (message : Option String) (deleted_count : Int) : String :=
  match message with
  | some m => if m = "" then "成功删除 " ++ deleteCountText deleted_count else m
  | none => "成功删除 " ++ deleteCountText deleted_count

/-- C9: whenever the backend supplies no (or an empty, i.e. falsy)
`message`, the frontend's success text reports whole-table deletion
exactly when `deleted_count` is the `-1` sentinel; any other value is
rendered as a row count. -/
theorem C9_delete_count_sentinel (message : Option String) (dc : Int)
    (hmsg : message = none ∨ message = some "") :
    (deleteSuccessText message dc = "成功删除 整个表" ↔ dc = -1) := by
  have key : ("成功删除 " ++ deleteCountText dc = "成功删除 整个表") ↔ dc = -1 := by
    by_cases h : dc = -1
    · subst h
      simp [deleteCountText]
    · simp only [deleteCountText, if_neg h]
      constructor
      · intro heq
        have hlen := congrArg String.length heq
        simp only [String.length_append] at hlen
        have h1 : ("成功删除 " : String).length = 5 := by decide
        have h2 : (" 条记录" : String).length = 4 := by decide
        have h3 : ("成功删除 整个表" : String).length = 8 := by decide
        omega
      · intro hd
        exact absurd hd h
  rcases hmsg with h | h <;> subst h <;> simpa [deleteSuccessText] using key

theorem C9_delete_count_sentinel_witness :
    ((none : Option String) = none ∨ (none : Option String) = some "") ∧
      (deleteSuccessText none (-1) = "成功删除 整个表" ↔ (-1 : Int) = -1) :=
  ⟨Or.inl rfl, C9_delete_count_sentinel none (-1) (Or.inl rfl)⟩

/-! ### C10: symbol uppercasing in the download and delete forms
(src/unnamed/part_002 DownloadForm, DeleteForm.tsx) -/

/-- JS `String.prototype.toUpperCase` as used on the ASCII trading-pair
symbols: uppercase every character. -/
def jsToUpper (s : String) : String :=
  String.mk (s.data.map Char.toUpper)

/-- A string is in submitted (all-caps) form when uppercasing it again
changes nothing. -/
def UpperForm (s : String) : Prop :=
  jsToUpper s = s

/-- Shared shape of the DownloadForm and DeleteForm state (interval,
symbol, start/end time fields of the two `useState` records). -/
structure FormState where
  interval : Interval
  symbol : String
  startTime : String
  endTime : String
  deriving DecidableEq, Repr

/-- The user-edit events of the two forms. -/
inductive FormEvent where
  | setSymbol (raw : String)
  | setInterval (i : Interval)
  | setStartTime (v : String)
  | setEndTime (v : String)

/-- One `onChange` of the forms.  The symbol input's handler is
`setFormData({ ...formData, symbol: e.target.value.toUpperCase() })`
in both DownloadForm and DeleteForm; the other inputs store the raw
value. -/
def applyEvent (st : FormState) : FormEvent → FormState
  | .setSymbol raw => { st with symbol := jsToUpper raw }
  | .setInterval i => { st with interval := i }
  | .setStartTime v => { st with startTime := v }
  | .setEndTime v => { st with endTime := v }

/-- Initial DownloadForm state (part_002 `useState`). -/
def initDownloadForm : FormState :=
  { interval := .i1d, symbol := "", startTime := "2021-11-22 00:00:00", endTime := "" }

/-- Initial DeleteForm state (DeleteForm.tsx `useState`). -/
def initDeleteForm : FormState :=
  { interval := .i1d, symbol := "", startTime := "", endTime := "" }

/-- Form states reachable from a given initial state by user edits. -/
inductive ReachableFrom (init : FormState) : FormState → Prop where
  | refl : ReachableFrom init init
  | step {st : FormState} (e : FormEvent) :
      ReachableFrom init st → ReachableFrom init (applyEvent st e)

/-- DownloadForm `handleSubmit`: `if (formData.symbol) payload.symbol =
formData.symbol` — the state value is submitted unchanged, omitted when
empty. -/
def downloadPayloadSymbol (st : FormState) : Option String :=
  if st.symbol = "" then none else some st.symbol

/-- DeleteForm `handleDelete`: `symbol: deleteFormData.symbol.toUpperCase()`. -/
def deletePayloadSymbol (st : FormState) : String :=
  jsToUpper st.symbol

theorem charToUpper_idem (c : Char) : c.toUpper.toUpper = c.toUpper := by
  have hofNat : ∀ n : Nat, n.isValidChar → (Char.ofNat n).toNat = n := by
    intro n h
    simp only [Char.ofNat, dif_pos h, Char.ofNatAux, Char.toNat, UInt32.toNat]
    simp [BitVec.toNat_ofNat]
  simp only [Char.toUpper]
  split
  · rename_i h
    obtain ⟨h1, h2⟩ := h
    have hval : Nat.isValidChar (c.toNat - 32) := Or.inl (by omega)
    rw [hofNat _ hval, if_neg (by omega)]
  · rfl

theorem jsToUpper_idem (s : String) : jsToUpper (jsToUpper s) = jsToUpper s := by
  simp only [jsToUpper, List.map_map]
  congr 1
  exact List.map_congr_left fun c _ => charToUpper_idem c

/-- Every reachable form state keeps the symbol field in all-caps form. -/
theorem reachable_symbol_upper {init st : FormState}
    (hinit : UpperForm init.symbol) (h : ReachableFrom init st) :
    UpperForm st.symbol := by
  induction h with
  | refl => exact hinit
  | step e _ ih =>
    cases e with
    | setSymbol raw => exact jsToUpper_idem raw
    | setInterval i => exact ih
    | setStartTime v => exact ih
    | setEndTime v => exact ih

/-- C10: after every edit the form state holds the upper-cased symbol, so
the symbol the DownloadForm submits is in all-caps form, and the
DeleteForm payload upper-cases the state symbol again, so it is in
all-caps form for every state whatsoever. -/
theorem C10_submitted_symbols_uppercased (st del : FormState)
    (h : ReachableFrom initDownloadForm st) :
    UpperForm st.symbol ∧
    (∀ p, downloadPayloadSymbol st = some p → UpperForm p) ∧
    UpperForm (deletePayloadSymbol del) := by
  have hinit : UpperForm initDownloadForm.symbol := by
    show jsToUpper "" = ""
    rfl
  have hst : UpperForm st.symbol := reachable_symbol_upper hinit h
  refine ⟨hst, ?_, jsToUpper_idem del.symbol⟩
  intro p hp
  simp only [downloadPayloadSymbol] at hp
  split at hp
  · exact absurd hp (by simp)
  · cases hp
    exact hst

theorem C10_submitted_symbols_uppercased_witness :
    ReachableFrom initDownloadForm
        (applyEvent initDownloadForm (.setSymbol "btcusdt")) ∧
      (UpperForm (applyEvent initDownloadForm (.setSymbol "btcusdt")).symbol ∧
       (∀ p, downloadPayloadSymbol
          (applyEvent initDownloadForm (.setSymbol "btcusdt")) = some p →
          UpperForm p) ∧
       UpperForm (deletePayloadSymbol initDeleteForm)) :=
  ⟨ReachableFrom.step _ ReachableFrom.refl,
   C10_submitted_symbols_uppercased _ initDeleteForm
     (ReachableFrom.step _ ReachableFrom.refl)⟩

end CryptoData
